import Mathlib

/-!
Shallow embedding of the INMET weather-station processing pipeline
(`src/inmet_process.py`) and proofs about its core transformations:
station-code extraction from member names, normalized-table construction
(timestamp parsing, null dropping, first-occurrence deduplication),
variable projection, and the completeness calculator.

Conventions of the embedding:
* strings are modelled as `List Char`;
* timestamps are seconds since the Unix epoch, as `ℤ` (pandas datetimes
  at the second resolution reachable from the `%Y/%m/%d %H%M UTC` format);
* `pd.to_numeric(..., errors='coerce')` on a text cell is modelled by
  `toNumeric : List Char → Option ℚ` covering the plain decimal forms
  (optional sign, digits, optional fractional part); exponent and special
  forms are not reachable in the claims considered here;
* Python's `round(x, 2)` is modelled exactly over `ℚ` by `round2`
  (floating-point representation effects are outside the model);
* a thrown-and-caught exception while reading a persisted series is
  modelled by the `ReadOutcome.err` constructor.
-/

namespace Inmet

/-! ### Character utilities -/

def isDigitCh (c : Char) : Bool := '0' ≤ c && c ≤ '9'

def isUpperCh (c : Char) : Bool := 'A' ≤ c && c ≤ 'Z'

def digitVal (c : Char) : ℕ := c.toNat - '0'.toNat

def natOfDigits (l : List Char) : ℕ := l.foldl (fun n c => 10 * n + digitVal c) 0

/-! ### Numeric coercion (`pd.to_numeric(..., errors='coerce')` on a cell) -/

/-- Parse an unsigned decimal numeral: digits, optionally followed by a
point and further digits; at least one digit overall. -/
def parseUnsigned (s : List Char) : Option ℚ :=
  let intPart := s.takeWhile isDigitCh
  let rest := s.dropWhile isDigitCh
  match rest with
  | [] => if intPart.isEmpty then none else some (natOfDigits intPart)
  | '.' :: frac =>
      if frac.all isDigitCh && !(intPart.isEmpty && frac.isEmpty) then
        some ((natOfDigits intPart : ℚ) + (natOfDigits frac : ℚ) / (10 : ℚ) ^ frac.length)
      else none
  | _ => none

/-- Result of coercing one text cell to a number; `none` is the NaN that
`errors='coerce'` produces for an invalid format. -/
def toNumeric (s : List Char) : Option ℚ :=
  match s with
  | '-' :: rest => (parseUnsigned rest).map (fun q => -q)
  | '+' :: rest => parseUnsigned rest
  | _ => parseUnsigned s

/-! ### Rounding (`round(x, 2)` over exact rationals) -/

def round2 (q : ℚ) : ℚ := ((round (100 * q) : ℤ) : ℚ) / 100

/-! ### The persisted series rows seen by the completeness calculator

One row of a persisted per-station file: the already-parsed timestamp
index value and the raw text of the `value` column (re-coerced at report
time, `inmet_process.py` line 91). -/

structure CRow where
  datetime : ℤ
  value : List Char
deriving DecidableEq, Repr

def tsList (rows : List CRow) : List ℤ := rows.map CRow.datetime

/-- `df['datetime'].min()` (meaningful on nonempty input; the empty case
is unreachable behind the `df.empty` guard). -/
def minTs (rows : List CRow) : ℤ :=
  match rows with
  | [] => 0
  | r :: tl => (tl.map CRow.datetime).foldl min r.datetime

/-- `df['datetime'].max()`. -/
def maxTs (rows : List CRow) : ℤ :=
  match rows with
  | [] => 0
  | r :: tl => (tl.map CRow.datetime).foldl max r.datetime

/-- Count of rows whose value cell coerces to a valid number
(`pd.to_numeric(df['value'], errors='coerce').notna().sum()`). -/
def validRecords (rows : List CRow) : ℕ :=
  (rows.filter (fun r => (toNumeric r.value).isSome)).length

/-- `int((end_dt - start_dt).total_seconds() / 3600) + 1`.  The span is
nonnegative (max ≥ min), so Python's truncation toward zero agrees with
integer floor division. -/
def expectedRecords (rows : List CRow) : ℤ :=
  (maxTs rows - minTs rows) / 3600 + 1

/-- Core of `calculate_completeness` after a successful read, lines 86-98
of `inmet_process.py`. -/
def completenessOfRows (rows : List CRow) : ℚ :=
  if rows.isEmpty then 0
  else if expectedRecords rows ≤ 0 then 0
  else round2 ((validRecords rows : ℚ) / ((expectedRecords rows : ℤ) : ℚ))

/-! ### File-level wrapper of `calculate_completeness` -/

/-- What reading and interpreting the persisted file produced: the parsed
rows, or `err` for any exception raised inside the `try` block (missing
column, unparseable datetime, malformed csv, ...). -/
inductive ReadOutcome where
  | ok (rows : List CRow)
  | err
deriving DecidableEq

structure CompletenessRecord where
  station_code : List Char
  completeness : ℚ
deriving DecidableEq, Repr

/-- `os.path.basename`: the part after the last slash. -/
def basename (p : List Char) : List Char :=
  ((p.reverse.takeWhile (fun c => !(c == '/'))).reverse)

/-- `str.replace('.csv', '')`: remove every (leftmost-first,
non-overlapping) occurrence of ".csv". -/
def removeCsvAll : List Char → List Char
  | [] => []
  | '.' :: 'c' :: 's' :: 'v' :: rest => removeCsvAll rest
  | c :: rest => c :: removeCsvAll rest

def stationCodeOfPath (p : List Char) : List Char := removeCsvAll (basename p)

/-- `calculate_completeness` (lines 81-100): total over the read outcome;
the `except` branch yields a 0.00 record with the station code already
computed. -/
def calculate_completeness (path : List Char) (outcome : ReadOutcome) :
    CompletenessRecord :=
  match outcome with
  | ReadOutcome.ok rows => ⟨stationCodeOfPath path, completenessOfRows rows⟩
  | ReadOutcome.err => ⟨stationCodeOfPath path, 0⟩

/-! ### Station-code extraction (line 34)

`re.search(r'INMET_.*_([A-Z]\d\x7b3\x7d)_.*', name)`: unanchored search,
leftmost match position, greedy `.*` (so the captured group is the
rightmost viable `_CODE_` after the match position).  File names contain
no newline, and the character classes are taken at their ASCII meaning. -/

/-- Group shape `[A-Z]` followed by three digits. -/
def isCodeChars : List Char → Bool
  | [a, b, c, d] => isUpperCh a && isDigitCh b && isDigitCh c && isDigitCh d
  | _ => false

/-- Does `'_' CODE '_'` sit at the head of the list?  Returns the code. -/
def codeAtHead : List Char → Option (List Char)
  | '_' :: a :: b :: c :: d :: '_' :: _ =>
      if isCodeChars [a, b, c, d] then some [a, b, c, d] else none
  | _ => none

/-- The rightmost `'_' CODE '_'` occurrence in the list (greedy `.*`
backtracks from the right). -/
def lastCode : List Char → Option (List Char)
  | [] => none
  | c :: tl =>
      match lastCode tl with
      | some code => some code
      | none => codeAtHead (c :: tl)

/-- Attempt the whole pattern at the current position: literal prefix
`INMET_`, then `.*_([A-Z]\d\x7b3\x7d)_.*` over the remainder. -/
def matchAt : List Char → Option (List Char)
  | 'I' :: 'N' :: 'M' :: 'E' :: 'T' :: '_' :: rest => lastCode rest
  | _ => none

/-- `re.search`: try every start position left to right. -/
def stationCodeSearch : List Char → Option (List Char)
  | [] => none
  | c :: tl =>
      match matchAt (c :: tl) with
      | some code => some code
      | none => stationCodeSearch tl

/-- Modelled from the spec: the naming convention
`INMET_<anything>_<LETTER><DIGIT><DIGIT><DIGIT>_<anything>` read as a
match of the whole name anchored at its start (the spec's wording; the
code itself is the unanchored `stationCodeSearch`). -/
def specNameConvention (s : List Char) : Bool :=
  match s with
  | 'I' :: 'N' :: 'M' :: 'E' :: 'T' :: '_' :: rest => (lastCode rest).isSome
  | _ => false

def inmetTag : List Char := ['I', 'N', 'M', 'E', 'T', '_']

/-! ### Timestamp parsing (`pd.to_datetime(..., format='%Y/%m/%d %H%M UTC')`) -/

def isLeapYear (y : ℤ) : Bool := (y % 4 == 0 && y % 100 != 0) || y % 400 == 0

def daysInMonth (y : ℤ) (m : ℕ) : ℕ :=
  if m == 2 then (if isLeapYear y then 29 else 28)
  else if m == 4 || m == 6 || m == 9 || m == 11 then 30
  else 31

/-- Days between the given civil date and 1970-01-01 (proleptic
Gregorian). -/
def daysFromCivil (y : ℤ) (m d : ℕ) : ℤ :=
  let y' : ℤ := if m ≤ 2 then y - 1 else y
  let era : ℤ := (if 0 ≤ y' then y' else y' - 399) / 400
  let yoe : ℤ := y' - era * 400
  let doy : ℤ := (153 * (if 2 < m then (m : ℤ) - 3 else (m : ℤ) + 9) + 2) / 5 + d - 1
  let doe : ℤ := yoe * 365 + yoe / 4 - yoe / 100 + doy
  era * 146097 + doe - 719468

/-- Parse `YYYY/MM/DD HHMM UTC` to epoch seconds; `none` is the NaT that
`errors='coerce'` produces. -/
def parseTimestamp (s : List Char) : Option ℤ :=
  match s with
  | [y1, y2, y3, y4, s1, m1, m2, s2, d1, d2, sp, h1, h2, n1, n2,
     spU, cU, cT, cC] =>
      if (([y1, y2, y3, y4, m1, m2, d1, d2, h1, h2, n1, n2].all isDigitCh)
          && s1 == '/' && s2 == '/' && sp == ' '
          && spU == ' ' && cU == 'U' && cT == 'T' && cC == 'C') then
        let y : ℤ := natOfDigits [y1, y2, y3, y4]
        let mo : ℕ := natOfDigits [m1, m2]
        let d : ℕ := natOfDigits [d1, d2]
        let h : ℕ := natOfDigits [h1, h2]
        let mi : ℕ := natOfDigits [n1, n2]
        if 1 ≤ mo && mo ≤ 12 && 1 ≤ d && d ≤ daysInMonth y mo
            && h ≤ 23 && mi ≤ 59 then
          some (daysFromCivil y mo d * 86400 + h * 3600 + mi * 60)
        else none
      else none
  | _ => none

/-! ### Normalized table construction (lines 41-50)

Column labels are taken post-normalization (the `unidecode`/strip/lower
pass of line 44 happens upstream of everything modelled here; none of the
claims depends on the fold itself, only on the normalized labels). -/

structure RawTable where
  cols : List (List Char)
  rows : List (List (List Char))
deriving DecidableEq

structure Table where
  cols : List (List Char)
  rows : List (ℤ × List (List Char))
deriving DecidableEq

def startsWithSeq : List Char → List Char → Bool
  | [], _ => true
  | _ :: _, [] => false
  | p :: ps, c :: cs => p == c && startsWithSeq ps cs

/-- Python's substring containment (`pat in s`). -/
def containsSeq (pat : List Char) : List Char → Bool
  | [] => startsWithSeq pat []
  | c :: cs => startsWithSeq pat (c :: cs) || containsSeq pat cs

def dataLabel : List Char := ['d', 'a', 't', 'a']

def horaLabel : List Char := ['h', 'o', 'r', 'a', ' ', 'u', 't', 'c']

def colIdx (cols : List (List Char)) (lbl : List Char) : Option ℕ :=
  cols.findIdx? (fun c => c == lbl)

/-- `pd.to_datetime(df['data'] + ' ' + df['hora utc'], ...)` for one row:
look the two cells up and parse their concatenation. -/
def rowDatetime (cols : List (List Char)) (cs : List (List Char)) : Option ℤ :=
  match colIdx cols dataLabel, colIdx cols horaLabel with
  | some di, some hi =>
      match cs.get? di, cs.get? hi with
      | some d, some h => parseTimestamp (d ++ ' ' :: h)
      | _, _ => none
  | _, _ => none

/-- The rows that survive `dropna(subset=['datetime'])`, keyed by their
parsed timestamp, in file order. -/
def keyedRows (raw : RawTable) : List (ℤ × List (List Char)) :=
  raw.rows.filterMap (fun cs => (rowDatetime raw.cols cs).map (fun t => (t, cs)))

/-- `drop_duplicates(subset=['datetime'], keep='first')`: keep each key's
first occurrence, scanning left to right with the set of keys already
seen. -/
def dedupFirstAux (seen : List ℤ) :
    List (ℤ × List (List Char)) → List (ℤ × List (List Char))
  | [] => []
  | p :: tl =>
      if p.1 ∈ seen then dedupFirstAux seen tl
      else p :: dedupFirstAux (p.1 :: seen) tl

def dedupFirst (l : List (ℤ × List (List Char))) :
    List (ℤ × List (List Char)) :=
  dedupFirstAux [] l

/-- Lines 44-50 applied to an already-read raw table; `none` is the
exception path (`df['data']` / `df['hora utc']` raising `KeyError`),
caught by the caller. -/
def buildTable (raw : RawTable) : Option Table :=
  if (colIdx raw.cols dataLabel).isSome && (colIdx raw.cols horaLabel).isSome then
    some ⟨raw.cols, dedupFirst (keyedRows raw)⟩
  else none

/-! ### Variable projection (lines 53-58 and 65-70) -/

inductive VariableKind where
  | totalPrecipitation
  | airTemperature2m
deriving DecidableEq

def marker : VariableKind → List Char
  | VariableKind.totalPrecipitation => "precipitacao total".toList
  | VariableKind.airTemperature2m => "bulbo seco".toList

structure VariableSeries where
  rows : List (ℤ × ℚ)
deriving DecidableEq

/-- One projection pass (`next(...)`, select, rename, `to_numeric`,
`dropna`).  The returned table is the state of `df` after the call: the
code works on `df[[col]].copy()`, so the source table comes back
unchanged. -/
def project (t : Table) (k : VariableKind) : Table × Option VariableSeries :=
  match t.cols.findIdx? (fun c => containsSeq (marker k) c) with
  | none => (t, none)
  | some i =>
      (t, some ⟨t.rows.filterMap
        (fun p => match p.2.get? i with
          | some cell => (toNumeric cell).map (fun q => (p.1, q))
          | none => none)⟩)

/-! ### Spec-side comparison definition for the report's station code -/

/-- Modelled from the claim's words: the basename with the `.csv` suffix
(only) removed — to be compared with the code's `replace('.csv', '')`. -/
def stripCsvSuffixSpec (s : List Char) : List Char :=
  match s.reverse with
  | 'v' :: 's' :: 'c' :: '.' :: rest => rest.reverse
  | _ => s

/-! ### Concrete example inputs -/

/-- Two valid rows half an hour apart: distinct timestamps, both values
numeric. -/
def exSubHourly : List CRow := [⟨0, ['1']⟩, ⟨1800, ['2']⟩]

/-- Two valid rows exactly one hour apart. -/
def exHourly : List CRow := [⟨0, ['1']⟩, ⟨3600, ['2']⟩]

/-- Two valid rows spanning two hours (a one-hour gap inside). -/
def exSpan : List CRow := [⟨0, ['1']⟩, ⟨7200, ['2']⟩]

/-- A raw station table: a duplicate timestamp (different date text is not
needed — same instant repeated) and one unparseable date. -/
def exRawTable : RawTable :=
  ⟨[dataLabel, horaLabel],
   [["2020/01/01".toList, "0000 UTC".toList],
    ["2020/01/01".toList, "0000 UTC".toList],
    ["bad".toList, "0000 UTC".toList],
    ["2020/01/01".toList, "0100 UTC".toList]]⟩

/-- The normalized table the extractor produces from `exRawTable`. -/
def exTable : Table :=
  ⟨[dataLabel, horaLabel],
   [(1577836800, ["2020/01/01".toList, "0000 UTC".toList]),
    (1577840400, ["2020/01/01".toList, "0100 UTC".toList])]⟩

/-- A normalized table carrying a precipitation column with one
non-numeric cell. -/
def exProjTable : Table :=
  ⟨["data".toList, "hora utc".toList,
    "precipitacao total, horario (mm)".toList],
   [(0, ["2020/01/01".toList, "0000 UTC".toList, "4".toList]),
    (3600, ["2020/01/01".toList, "0100 UTC".toList, "x".toList]),
    (7200, ["2020/01/01".toList, "0200 UTC".toList, "7".toList])]⟩

/-! ## Helper lemmas: folds computing column minima and maxima -/

theorem foldl_min_le_init : ∀ (l : List ℤ) (a : ℤ), l.foldl min a ≤ a
  | [], a => le_refl a
  | x :: tl, a => by
      simp only [List.foldl_cons]
      exact le_trans (foldl_min_le_init tl (min a x)) (min_le_left a x)

theorem foldl_min_le_mem : ∀ (l : List ℤ) (a x : ℤ), x ∈ l → l.foldl min a ≤ x
  | x :: tl, a, y, hy => by
      simp only [List.foldl_cons]
      rcases List.mem_cons.mp hy with rfl | hy
      · exact le_trans (foldl_min_le_init tl (min a y)) (min_le_right a y)
      · exact foldl_min_le_mem tl (min a x) y hy

theorem foldl_min_choice : ∀ (l : List ℤ) (a : ℤ),
    l.foldl min a = a ∨ l.foldl min a ∈ l
  | [], a => Or.inl rfl
  | x :: tl, a => by
      simp only [List.foldl_cons]
      rcases foldl_min_choice tl (min a x) with h | h
      · rcases min_choice a x with h2 | h2
        · exact Or.inl (h.trans h2)
        · exact Or.inr (by rw [h, h2]; exact List.mem_cons_self _ _)
      · exact Or.inr (List.mem_cons_of_mem _ h)

theorem foldl_max_init_le : ∀ (l : List ℤ) (a : ℤ), a ≤ l.foldl max a
  | [], a => le_refl a
  | x :: tl, a => by
      simp only [List.foldl_cons]
      exact le_trans (le_max_left a x) (foldl_max_init_le tl (max a x))

theorem foldl_max_mem_le : ∀ (l : List ℤ) (a x : ℤ), x ∈ l → x ≤ l.foldl max a
  | x :: tl, a, y, hy => by
      simp only [List.foldl_cons]
      rcases List.mem_cons.mp hy with rfl | hy
      · exact le_trans (le_max_right a y) (foldl_max_init_le tl (max a y))
      · exact foldl_max_mem_le tl (max a x) y hy

theorem foldl_max_choice : ∀ (l : List ℤ) (a : ℤ),
    l.foldl max a = a ∨ l.foldl max a ∈ l
  | [], a => Or.inl rfl
  | x :: tl, a => by
      simp only [List.foldl_cons]
      rcases foldl_max_choice tl (max a x) with h | h
      · rcases max_choice a x with h2 | h2
        · exact Or.inl (h.trans h2)
        · exact Or.inr (by rw [h, h2]; exact List.mem_cons_self _ _)
      · exact Or.inr (List.mem_cons_of_mem _ h)

/-! ## Helper lemmas: `minTs`, `maxTs`, `expectedRecords` -/

theorem minTs_le_mem (rows : List CRow) (x : ℤ) (hx : x ∈ tsList rows) :
    minTs rows ≤ x := by
  cases rows with
  | nil => simp [tsList] at hx
  | cons r tl =>
      simp only [tsList, List.map_cons, List.mem_cons] at hx
      show (tl.map CRow.datetime).foldl min r.datetime ≤ x
      rcases hx with rfl | hx
      · exact foldl_min_le_init _ _
      · exact foldl_min_le_mem _ _ _ hx

theorem mem_le_maxTs (rows : List CRow) (x : ℤ) (hx : x ∈ tsList rows) :
    x ≤ maxTs rows := by
  cases rows with
  | nil => simp [tsList] at hx
  | cons r tl =>
      simp only [tsList, List.map_cons, List.mem_cons] at hx
      show x ≤ (tl.map CRow.datetime).foldl max r.datetime
      rcases hx with rfl | hx
      · exact foldl_max_init_le _ _
      · exact foldl_max_mem_le _ _ _ hx

theorem minTs_mem (rows : List CRow) (hne : rows ≠ []) :
    minTs rows ∈ tsList rows := by
  cases rows with
  | nil => exact absurd rfl hne
  | cons r tl =>
      show (tl.map CRow.datetime).foldl min r.datetime ∈ _
      simp only [tsList, List.map_cons]
      rcases foldl_min_choice (tl.map CRow.datetime) r.datetime with h | h
      · rw [h]; exact List.mem_cons_self _ _
      · exact List.mem_cons_of_mem _ h

theorem maxTs_mem (rows : List CRow) (hne : rows ≠ []) :
    maxTs rows ∈ tsList rows := by
  cases rows with
  | nil => exact absurd rfl hne
  | cons r tl =>
      show (tl.map CRow.datetime).foldl max r.datetime ∈ _
      simp only [tsList, List.map_cons]
      rcases foldl_max_choice (tl.map CRow.datetime) r.datetime with h | h
      · rw [h]; exact List.mem_cons_self _ _
      · exact List.mem_cons_of_mem _ h

theorem minTs_le_maxTs (rows : List CRow) (hne : rows ≠ []) :
    minTs rows ≤ maxTs rows :=
  mem_le_maxTs rows _ (minTs_mem rows hne)

theorem expectedRecords_pos (rows : List CRow) (hne : rows ≠ []) :
    1 ≤ expectedRecords rows := by
  have h := minTs_le_maxTs rows hne
  unfold expectedRecords
  omega

theorem minTs_append_one (rows : List CRow) (hne : rows ≠ []) (r : CRow) :
    minTs (rows ++ [r]) = min (minTs rows) r.datetime := by
  cases rows with
  | nil => exact absurd rfl hne
  | cons r0 tl =>
      show ((tl ++ [r]).map CRow.datetime).foldl min r0.datetime = _
      rw [List.map_append, List.foldl_append]
      rfl

theorem maxTs_append_one (rows : List CRow) (hne : rows ≠ []) (r : CRow) :
    maxTs (rows ++ [r]) = max (maxTs rows) r.datetime := by
  cases rows with
  | nil => exact absurd rfl hne
  | cons r0 tl =>
      show ((tl ++ [r]).map CRow.datetime).foldl max r0.datetime = _
      rw [List.map_append, List.foldl_append]
      rfl

/-! ## Helper lemmas: rounding -/

theorem round2_mono {a b : ℚ} (h : a ≤ b) : round2 a ≤ round2 b := by
  unfold round2
  have h1 : round (100 * a) ≤ round (100 * b) := by
    rw [round_eq, round_eq]
    exact Int.floor_le_floor (by linarith)
  exact (div_le_div_iff_of_pos_right (by norm_num)).mpr (Int.cast_le.mpr h1)

theorem round2_nonneg {q : ℚ} (h : 0 ≤ q) : 0 ≤ round2 q := by
  unfold round2
  have h1 : (0 : ℤ) ≤ round (100 * q) := by
    rw [round_eq]
    exact Int.le_floor.mpr (by push_cast; linarith)
  positivity

theorem round2_one : round2 1 = 1 := by
  unfold round2
  rw [round_eq]
  norm_num

theorem round2_le_one {q : ℚ} (h : q ≤ 1) : round2 q ≤ 1 := by
  have := round2_mono h
  rwa [round2_one] at this

/-! ## Helper lemmas: counting distinct hourly timestamps -/

theorem length_le_of_nodup_bounded (L : List ℕ) (n : ℕ) (hnd : L.Nodup)
    (hb : ∀ x ∈ L, x < n) : L.length ≤ n := by
  classical
  have h1 : L.toFinset.card = L.length := List.toFinset_card_of_nodup hnd
  have h2 : L.toFinset ⊆ Finset.range n := by
    intro x hx
    rw [Finset.mem_range]
    exact hb x (List.mem_toFinset.mp hx)
  have h3 := Finset.card_le_card h2
  rw [h1, Finset.card_range] at h3
  exact h3

/-- With pairwise-distinct timestamps on a common hourly grid, the row
count never exceeds the expected record count. -/
theorem length_le_expectedRecords (rows : List CRow) (hne : rows ≠ [])
    (hnd : (tsList rows).Nodup)
    (hgrid : ∀ a ∈ tsList rows, ∀ b ∈ tsList rows, a % 3600 = b % 3600) :
    (rows.length : ℤ) ≤ expectedRecords rows := by
  have hmem : minTs rows ∈ tsList rows := minTs_mem rows hne
  have hinj : ∀ x ∈ tsList rows, ∀ y ∈ tsList rows,
      ((x - minTs rows) / 3600).toNat = ((y - minTs rows) / 3600).toNat → x = y := by
    intro x hx y hy hxy
    have h1 := hgrid x hx (minTs rows) hmem
    have h2 := hgrid y hy (minTs rows) hmem
    have h3 := minTs_le_mem rows x hx
    have h4 := minTs_le_mem rows y hy
    omega
  have hmapnd : ((tsList rows).map
      (fun t => ((t - minTs rows) / 3600).toNat)).Nodup := hnd.map_on hinj
  have hbound : ∀ x ∈ tsList rows,
      ((x - minTs rows) / 3600).toNat < (expectedRecords rows).toNat := by
    intro x hx
    have h1 := mem_le_maxTs rows x hx
    have h2 := minTs_le_mem rows x hx
    unfold expectedRecords
    omega
  have hlen := length_le_of_nodup_bounded _ (expectedRecords rows).toNat hmapnd
    (by
      intro x hx
      obtain ⟨t, ht, rfl⟩ := List.mem_map.mp hx
      exact hbound t ht)
  have hE := expectedRecords_pos rows hne
  rw [List.length_map] at hlen
  have hlrows : (tsList rows).length = rows.length := List.length_map _ _
  omega

/-! ## Helper lemmas: the completeness value on nonempty input -/

theorem completenessOfRows_nonempty (rows : List CRow) (hne : rows ≠ []) :
    completenessOfRows rows =
      round2 ((validRecords rows : ℚ) / ((expectedRecords rows : ℤ) : ℚ)) := by
  have hE := expectedRecords_pos rows hne
  cases rows with
  | nil => exact absurd rfl hne
  | cons r tl =>
      unfold completenessOfRows
      rw [if_neg (by simp), if_neg (by omega)]

theorem validRecords_le_length (rows : List CRow) :
    validRecords rows ≤ rows.length :=
  List.length_filter_le _ _

/-! ## Helper lemmas: first-occurrence deduplication -/

theorem mem_dedupFirstAux (l : List (ℤ × List (List Char)))
    (p : ℤ × List (List Char)) :
    ∀ seen, p ∈ dedupFirstAux seen l → p ∈ l := by
  induction l with
  | nil => intro seen h; simp [dedupFirstAux] at h
  | cons q tl ih =>
      intro seen h
      by_cases hq : q.1 ∈ seen
      · rw [dedupFirstAux, if_pos hq] at h
        exact List.mem_cons_of_mem _ (ih seen h)
      · rw [dedupFirstAux, if_neg hq] at h
        rcases List.mem_cons.mp h with rfl | h
        · exact List.mem_cons_self _ _
        · exact List.mem_cons_of_mem _ (ih _ h)

/-- Membership in the deduplicated scan is exactly being the first
element of the remaining list that carries one's key, that key not yet
seen. -/
theorem mem_dedupFirstAux_iff (l : List (ℤ × List (List Char)))
    (p : ℤ × List (List Char)) :
    ∀ seen, p ∈ dedupFirstAux seen l ↔
      ¬ p.1 ∈ seen ∧ l.find? (fun q => q.1 == p.1) = some p := by
  induction l with
  | nil => intro seen; simp [dedupFirstAux]
  | cons q tl ih =>
      intro seen
      by_cases hq : q.1 ∈ seen
      · rw [dedupFirstAux, if_pos hq]
        by_cases hk : q.1 = p.1
        · rw [ih seen]
          have hps : p.1 ∈ seen := hk ▸ hq
          simp [hps]
        · rw [ih seen, List.find?_cons_of_neg _ (by simp [hk])]
      · rw [dedupFirstAux, if_neg hq]
        by_cases hk : q.1 = p.1
        · rw [List.find?_cons_of_pos _ (by simp [hk])]
          constructor
          · intro h
            rcases List.mem_cons.mp h with rfl | h
            · exact ⟨hq, rfl⟩
            · have hmem := (ih (q.1 :: seen)).mp h
              exact absurd (by rw [← hk]; exact List.mem_cons_self _ _) hmem.1
          · rintro ⟨_, hsome⟩
            injection hsome with hsome
            cases hsome
            exact List.mem_cons_self _ _
        · rw [List.find?_cons_of_neg _ (by simp [hk])]
          constructor
          · intro h
            rcases List.mem_cons.mp h with rfl | h
            · exact absurd rfl hk
            · have hmem := (ih (q.1 :: seen)).mp h
              exact ⟨fun hs => hmem.1 (List.mem_cons_of_mem _ hs), hmem.2⟩
          · rintro ⟨hns, htl⟩
            refine List.mem_cons_of_mem _ ((ih (q.1 :: seen)).mpr ⟨?_, htl⟩)
            intro hmem
            rcases List.mem_cons.mp hmem with h1 | h1
            · exact hk (by rw [h1])
            · exact hns h1

/-- Membership in the deduplicated list is exactly being the first
element of the original list that carries one's key. -/
theorem mem_dedupFirst_iff (l : List (ℤ × List (List Char)))
    (p : ℤ × List (List Char)) :
    p ∈ dedupFirst l ↔ l.find? (fun q => q.1 == p.1) = some p := by
  rw [dedupFirst, mem_dedupFirstAux_iff l p []]
  simp

theorem dedupFirstAux_keys_nodup (l : List (ℤ × List (List Char))) :
    ∀ seen, ((dedupFirstAux seen l).map Prod.fst).Nodup ∧
      ∀ k ∈ (dedupFirstAux seen l).map Prod.fst, ¬ k ∈ seen := by
  induction l with
  | nil => intro seen; simp [dedupFirstAux]
  | cons q tl ih =>
      intro seen
      by_cases hq : q.1 ∈ seen
      · rw [dedupFirstAux, if_pos hq]
        exact ih seen
      · rw [dedupFirstAux, if_neg hq, List.map_cons, List.nodup_cons]
        obtain ⟨hnd, hnin⟩ := ih (q.1 :: seen)
        refine ⟨⟨fun hmem => hnin q.1 hmem (List.mem_cons_self _ _), hnd⟩, ?_⟩
        intro k hk
        rcases List.mem_cons.mp hk with rfl | hk
        · exact hq
        · exact fun hs => hnin k hk (List.mem_cons_of_mem _ hs)

theorem dedupFirst_keys_nodup (l : List (ℤ × List (List Char))) :
    ((dedupFirst l).map Prod.fst).Nodup :=
  (dedupFirstAux_keys_nodup l []).1

/-! ## Helper lemmas: projection preserves the index -/

theorem filterMap_fst_sublist (l : List (ℤ × List (List Char)))
    (f : ℤ × List (List Char) → Option (ℤ × ℚ))
    (hf : ∀ p q, f p = some q → q.1 = p.1) :
    ((l.filterMap f).map Prod.fst).Sublist (l.map Prod.fst) := by
  induction l with
  | nil => simp
  | cons x tl ih =>
      rw [List.filterMap_cons]
      cases hx : f x with
      | none => exact (List.map_cons _ _ _) ▸ (ih.cons x.1)
      | some q =>
          rw [List.map_cons, List.map_cons, hf x q hx]
          exact ih.cons₂ x.1

/-! ## Helper lemmas: the station-code pattern search -/

theorem isCodeChars_shape (c : List Char) (hc : isCodeChars c = true) :
    ∃ a b c3 d, c = [a, b, c3, d] := by
  unfold isCodeChars at hc
  split at hc
  next a b c3 d => exact ⟨a, b, c3, d, rfl⟩
  next => exact absurd hc (by simp)

theorem codeAtHead_sound (r : List Char) (c : List Char)
    (h : codeAtHead r = some c) :
    isCodeChars c = true ∧ ∃ v, r = '_' :: (c ++ ('_' :: v)) := by
  unfold codeAtHead at h
  split at h
  next a b c3 d tail =>
    split at h
    next hcode =>
      injection h with h
      exact ⟨h ▸ hcode, tail, by rw [← h]; simp⟩
    next => exact absurd h (by simp)
  next => exact absurd h (by simp)

theorem lastCode_sound (r : List Char) (c : List Char) (h : lastCode r = some c) :
    isCodeChars c = true ∧ ∃ u v, r = u ++ ('_' :: (c ++ ('_' :: v))) := by
  induction r with
  | nil => simp [lastCode] at h
  | cons x tl ih =>
      rcases hl : lastCode tl with _ | code
      · simp only [lastCode, hl] at h
        obtain ⟨hcode, v, heq⟩ := codeAtHead_sound _ _ h
        exact ⟨hcode, [], v, by simpa using heq⟩
      · simp only [lastCode, hl, Option.some.injEq] at h
        subst h
        obtain ⟨hcode, u, v, heq⟩ := ih hl
        exact ⟨hcode, x :: u, v, by rw [heq]; rfl⟩

theorem lastCode_isSome (c : List Char) (hc : isCodeChars c = true) :
    ∀ u v, (lastCode (u ++ ('_' :: (c ++ ('_' :: v))))).isSome = true := by
  intro u
  induction u with
  | nil =>
      intro v
      rw [List.nil_append, lastCode]
      rcases hl : lastCode (c ++ ('_' :: v)) with _ | code
      · simp only [hl]
        obtain ⟨a, b, c3, d, rfl⟩ := isCodeChars_shape c hc
        simp [codeAtHead, hc, List.cons_append]
      · simp [hl]
  | cons x u' ih =>
      intro v
      rw [List.cons_append, lastCode]
      rcases hl : lastCode (u' ++ ('_' :: (c ++ ('_' :: v)))) with _ | code
      · have hS := ih v
        rw [hl] at hS
        simp at hS
      · simp [hl]

theorem matchAt_sound (s : List Char) (c : List Char) (h : matchAt s = some c) :
    isCodeChars c = true ∧
      ∃ x y, s = inmetTag ++ (x ++ ('_' :: (c ++ ('_' :: y)))) := by
  unfold matchAt at h
  split at h
  next rest =>
    obtain ⟨hcode, u, v, heq⟩ := lastCode_sound rest c h
    exact ⟨hcode, u, v, by rw [heq]; rfl⟩
  next => exact absurd h (by simp)

theorem matchAt_isSome (c x y : List Char) (hc : isCodeChars c = true) :
    (matchAt (inmetTag ++ (x ++ ('_' :: (c ++ ('_' :: y)))))).isSome = true := by
  show (lastCode (x ++ ('_' :: (c ++ ('_' :: y))))).isSome = true
  exact lastCode_isSome c hc x y

theorem stationCodeSearch_sound (s : List Char) (c : List Char)
    (h : stationCodeSearch s = some c) :
    isCodeChars c = true ∧
      ∃ p x y, s = p ++ (inmetTag ++ (x ++ ('_' :: (c ++ ('_' :: y))))) := by
  induction s with
  | nil => simp [stationCodeSearch] at h
  | cons ch tl ih =>
      rcases hm : matchAt (ch :: tl) with _ | code
      · simp only [stationCodeSearch, hm] at h
        obtain ⟨hcode, p, x, y, heq⟩ := ih h
        exact ⟨hcode, ch :: p, x, y, by rw [heq]; rfl⟩
      · simp only [stationCodeSearch, hm, Option.some.injEq] at h
        subst h
        obtain ⟨hcode, x, y, heq⟩ := matchAt_sound _ _ hm
        exact ⟨hcode, [], x, y, by simpa using heq⟩

theorem stationCodeSearch_cons_isSome (ch : Char) (tl : List Char)
    (h : (stationCodeSearch tl).isSome = true) :
    (stationCodeSearch (ch :: tl)).isSome = true := by
  rw [stationCodeSearch]
  rcases hm : matchAt (ch :: tl) with _ | code
  · simpa [hm] using h
  · simp [hm]

theorem stationCodeSearch_isSome_of_matchAt (s : List Char)
    (h : (matchAt s).isSome = true) :
    (stationCodeSearch s).isSome = true := by
  cases s with
  | nil => simp [matchAt] at h
  | cons ch tl =>
      rw [stationCodeSearch]
      rcases hm : matchAt (ch :: tl) with _ | code
      · rw [hm] at h
        simp at h
      · simp [hm]

theorem stationCodeSearch_isSome (c : List Char) (hc : isCodeChars c = true)
    (p x y : List Char) :
    (stationCodeSearch
      (p ++ (inmetTag ++ (x ++ ('_' :: (c ++ ('_' :: y))))))).isSome = true := by
  induction p with
  | nil =>
      rw [List.nil_append]
      exact stationCodeSearch_isSome_of_matchAt _ (matchAt_isSome c x y hc)
  | cons ch p' ih =>
      rw [List.cons_append]
      exact stationCodeSearch_cons_isSome ch _ ih

/-- The spec's anchored naming convention holds exactly when the name
starts with the tag and carries an underscore-delimited code after it. -/
theorem specNameConvention_iff (s : List Char) :
    specNameConvention s = true ↔
      ∃ x c y, isCodeChars c = true ∧
        s = inmetTag ++ (x ++ ('_' :: (c ++ ('_' :: y)))) := by
  constructor
  · intro h
    unfold specNameConvention at h
    split at h
    next rest =>
      rcases hl : lastCode rest with _ | code
      · rw [hl] at h
        simp at h
      · obtain ⟨hcode, u, v, heq⟩ := lastCode_sound rest code hl
        exact ⟨u, code, v, hcode, by rw [heq]; rfl⟩
    next => exact absurd h (by simp)
  · rintro ⟨x, c, y, hc, rfl⟩
    show (lastCode (x ++ ('_' :: (c ++ ('_' :: y))))).isSome = true
    exact lastCode_isSome c hc x y

/-! ## Claim C2 -/

/-- Claim C2 (amended): the extractor searches the pattern anywhere in
the member name (the regex is unanchored): whenever the result is a code,
that code is a letter followed by three digits, underscore-delimited in
the name somewhere after an occurrence of INMET_; and every name
containing such a delimited code after an INMET_ occurrence yields a
result.  Contrapositively, a name with no such occurrence is skipped.
(As literally stated the claim fails: a name need not match the anchored
convention to yield output — containing the pattern anywhere suffices.) -/
theorem claim_C2_amended (s : List Char) :
    (∀ c, stationCodeSearch s = some c →
      isCodeChars c = true ∧
        ∃ p x y, s = p ++ (inmetTag ++ (x ++ ('_' :: (c ++ ('_' :: y)))))) ∧
    ((∃ p x c y, isCodeChars c = true ∧
        s = p ++ (inmetTag ++ (x ++ ('_' :: (c ++ ('_' :: y)))))) →
      (stationCodeSearch s).isSome = true) := by
  constructor
  · intro c h
    exact stationCodeSearch_sound s c h
  · rintro ⟨p, x, c, y, hc, rfl⟩
    exact stationCodeSearch_isSome c hc p x y

/-- Claim C2 counterexample: `XINMET_A_B123_C` does not match the spec's
anchored naming convention, yet the extractor produces station code
`B123` for it (the `re.search` is unanchored). -/
theorem claim_C2_counterexample :
    stationCodeSearch ("XINMET_A_B123_C".toList) = some ['B', '1', '2', '3'] ∧
    specNameConvention ("XINMET_A_B123_C".toList) = false := by decide

theorem claim_C2_witness :
    (stationCodeSearch ("INMET_SE_A001_X.CSV".toList)).isSome = true :=
  (claim_C2_amended _).2
    ⟨[], "SE".toList, "A001".toList, "X.CSV".toList, by decide, by decide⟩

/-! ## Claim C1 -/

/-- Claim C1 (amended): the completeness ratio is nonnegative and is a
multiple of 1/100 (rounded to 2 decimal places); it lies in the interval
0 to 1 whenever the series' timestamps are pairwise distinct and lie on a
common hourly grid.  (As literally stated the claim fails: a series whose
distinct timestamps sit less than an hour apart makes the valid-record
count exceed the expected-record count and the ratio exceed 1.) -/
theorem claim_C1_amended (rows : List CRow) :
    (0 ≤ completenessOfRows rows ∧
      ∃ k : ℤ, completenessOfRows rows = (k : ℚ) / 100) ∧
    ((tsList rows).Nodup →
      (∀ a ∈ tsList rows, ∀ b ∈ tsList rows, a % 3600 = b % 3600) →
      completenessOfRows rows ≤ 1) := by
  by_cases hne : rows = []
  · subst hne
    have h0 : completenessOfRows [] = 0 := rfl
    rw [h0]
    exact ⟨⟨le_refl 0, 0, by norm_num⟩, fun _ _ => by norm_num⟩
  · have hE := expectedRecords_pos rows hne
    rw [completenessOfRows_nonempty rows hne]
    have hEpos : (0 : ℚ) < ((expectedRecords rows : ℤ) : ℚ) := by
      exact_mod_cast (by omega : (0 : ℤ) < expectedRecords rows)
    have hvnonneg : (0 : ℚ) ≤
        (validRecords rows : ℚ) / ((expectedRecords rows : ℤ) : ℚ) :=
      div_nonneg (Nat.cast_nonneg _) (le_of_lt hEpos)
    refine ⟨⟨round2_nonneg hvnonneg, round (100 * _), rfl⟩, ?_⟩
    intro hnd hgrid
    have hlen := length_le_expectedRecords rows hne hnd hgrid
    have hv := validRecords_le_length rows
    apply round2_le_one
    rw [div_le_one hEpos]
    calc (validRecords rows : ℚ) ≤ (rows.length : ℚ) := by exact_mod_cast hv
      _ ≤ ((expectedRecords rows : ℤ) : ℚ) := by exact_mod_cast hlen

/-- Claim C1 counterexample: `exSubHourly` is a well-formed series
(distinct timestamps, all values numeric), yet its completeness ratio is
2, outside the claimed interval. -/
theorem claim_C1_counterexample :
    (tsList exSubHourly).Nodup ∧
    exSubHourly.all (fun r => (toNumeric r.value).isSome) = true ∧
    ¬ completenessOfRows exSubHourly ≤ 1 := by
  refine ⟨by decide, by decide, ?_⟩
  have h1 : expectedRecords exSubHourly = 1 := by decide
  have h2 : validRecords exSubHourly = 2 := by decide
  have h : completenessOfRows exSubHourly = 2 := by
    rw [completenessOfRows_nonempty exSubHourly (by decide), h1, h2]
    unfold round2
    rw [round_eq]
    norm_num
  rw [h]
  norm_num

theorem claim_C1_witness : completenessOfRows exHourly ≤ 1 :=
  (claim_C1_amended exHourly).2 (by decide) (by decide)

/-! ## Claim C3 -/

/-- Claim C3: for every nonempty, readable series the calculator computes
expectedRecords as the floor of the timestamp span in seconds over 3600,
plus one; returns 0.00 when that is nonpositive; and otherwise rounds
validRecords over expectedRecords to two decimals, validRecords counting
the rows whose value cell re-coerces to a number. -/
theorem claim_C3_holds (path : List Char) (rows : List CRow) (h : rows ≠ []) :
    (calculate_completeness path (ReadOutcome.ok rows)).completeness =
      if (⌊((maxTs rows - minTs rows : ℤ) : ℚ) / 3600⌋ + 1 : ℤ) ≤ 0 then 0
      else round2 (((rows.filter
          (fun r => (toNumeric r.value).isSome)).length : ℚ) /
        ((⌊((maxTs rows - minTs rows : ℤ) : ℚ) / 3600⌋ + 1 : ℤ) : ℚ)) := by
  have hfloor : (⌊((maxTs rows - minTs rows : ℤ) : ℚ) / 3600⌋ : ℤ) =
      (maxTs rows - minTs rows) / 3600 := by
    rw [show ((3600 : ℚ)) = ((3600 : ℕ) : ℚ) by norm_num]
    exact_mod_cast Rat.floor_intCast_div_natCast (maxTs rows - minTs rows) 3600
  show completenessOfRows rows = _
  rw [hfloor, completenessOfRows_nonempty rows h]
  have hE := expectedRecords_pos rows h
  rw [if_neg (by unfold expectedRecords at hE; omega)]
  rfl

/-- Concrete instantiation of claim C3: a two-row series spanning two
hours, with the equation's value also computed (round(2/3, 2) = 0.67). -/
theorem claim_C3_witness :
    ((calculate_completeness ("out/A001.csv".toList)
        (ReadOutcome.ok exSpan)).completeness =
      if (⌊((maxTs exSpan - minTs exSpan : ℤ) : ℚ) / 3600⌋ + 1 : ℤ) ≤ 0 then 0
      else round2 (((exSpan.filter
          (fun r => (toNumeric r.value).isSome)).length : ℚ) /
        ((⌊((maxTs exSpan - minTs exSpan : ℤ) : ℚ) / 3600⌋ + 1 : ℤ) : ℚ))) ∧
    (calculate_completeness ("out/A001.csv".toList)
        (ReadOutcome.ok exSpan)).completeness = 67 / 100 := by
  refine ⟨claim_C3_holds _ exSpan (by decide), ?_⟩
  show completenessOfRows exSpan = 67 / 100
  have h1 : expectedRecords exSpan = 3 := by decide
  have h2 : validRecords exSpan = 2 := by decide
  rw [completenessOfRows_nonempty exSpan (by decide), h1, h2]
  unfold round2
  rw [round_eq]
  norm_num

/-! ## Claim C5 -/

/-- Claim C5: a series with zero rows yields 0.00; a series with exactly
one row (its value coercing to a number, as every pipeline-written
VariableSeries row does) yields 1.00. -/
theorem claim_C5_holds :
    completenessOfRows [] = 0 ∧
    ∀ r : CRow, (toNumeric r.value).isSome = true →
      completenessOfRows [r] = 1 := by
  refine ⟨rfl, ?_⟩
  intro r hr
  have h1 : expectedRecords [r] = 1 := by
    show (r.datetime - r.datetime) / 3600 + 1 = 1
    omega
  have h2 : validRecords [r] = 1 := by
    unfold validRecords
    rw [List.filter_cons]
    simp [hr]
  rw [completenessOfRows_nonempty [r] (by simp), h1, h2]
  unfold round2
  rw [round_eq]
  norm_num

theorem claim_C5_witness : completenessOfRows [⟨0, ['7']⟩] = 1 :=
  claim_C5_holds.2 ⟨0, ['7']⟩ (by decide)

/-! ## Claim C4 -/

/-- Claim C4: every normalized table the extractor produces has a
duplicate-free timestamp index whose every entry re-derives from its own
row's date and hour cells (no null timestamps survive), and each kept row
is the first row in file order carrying its timestamp. -/
theorem claim_C4_holds (raw : RawTable) (tbl : Table)
    (h : buildTable raw = some tbl) :
    (tbl.rows.map Prod.fst).Nodup ∧
    (∀ p, p ∈ tbl.rows ↔
      (keyedRows raw).find? (fun q => q.1 == p.1) = some p) ∧
    (∀ p ∈ tbl.rows, rowDatetime raw.cols p.2 = some p.1) := by
  unfold buildTable at h
  split at h
  case isFalse => exact absurd h (by simp)
  case isTrue hc =>
    injection h with h
    have hrows : tbl.rows = dedupFirst (keyedRows raw) := by rw [← h]
    refine ⟨?_, ?_, ?_⟩
    · rw [hrows]
      exact dedupFirst_keys_nodup _
    · intro p
      rw [hrows]
      exact mem_dedupFirst_iff _ p
    · intro p hp
      rw [hrows] at hp
      have hmem : p ∈ keyedRows raw := mem_dedupFirstAux _ _ [] hp
      unfold keyedRows at hmem
      obtain ⟨cs, _, hf⟩ := List.mem_filterMap.mp hmem
      rcases hrd : rowDatetime raw.cols cs with _ | t
      · rw [hrd] at hf
        simp at hf
      · rw [hrd] at hf
        simp only [Option.map_some'] at hf
        injection hf with hf
        rw [← hf]
        exact hrd

/-- Concrete instantiation of claim C4: building the table from
`exRawTable` (a duplicated instant, one bad date) yields `exTable`, whose
timestamp index is duplicate-free. -/
theorem claim_C4_witness :
    buildTable exRawTable = some exTable ∧
    (exTable.rows.map Prod.fst).Nodup :=
  ⟨by decide, (claim_C4_holds exRawTable exTable (by decide)).1⟩

/-! ## Claim C6 -/

/-- Claim C6: a projected series' timestamp index is a subset of the
source table's index, in the source's relative order (a sublist of it);
no new timestamps appear. -/
theorem claim_C6_holds (t : Table) (k : VariableKind) (s : VariableSeries)
    (h : (project t k).2 = some s) :
    ((s.rows.map Prod.fst).Sublist (t.rows.map Prod.fst)) ∧
    (∀ ts ∈ s.rows.map Prod.fst, ts ∈ t.rows.map Prod.fst) := by
  unfold project at h
  rcases hfind : t.cols.findIdx? (fun c => containsSeq (marker k) c) with _ | i
  · rw [hfind] at h
    simp at h
  · rw [hfind] at h
    simp only [Option.some.injEq] at h
    have hrows : s.rows = t.rows.filterMap
        (fun p => match p.2.get? i with
          | some cell => (toNumeric cell).map (fun q => (p.1, q))
          | none => none) := by rw [← h]
    have hsub : (s.rows.map Prod.fst).Sublist (t.rows.map Prod.fst) := by
      rw [hrows]
      apply filterMap_fst_sublist
      intro p q hpq
      rcases hcell : p.2.get? i with _ | cell
      · rw [hcell] at hpq
        simp at hpq
      · rw [hcell] at hpq
        simp only [Option.map_eq_some'] at hpq
        obtain ⟨v, _, hq⟩ := hpq
        rw [← hq]
    exact ⟨hsub, fun ts hts => hsub.subset hts⟩

/-- Concrete instantiation of claim C6: projecting precipitation from
`exProjTable` drops the non-numeric middle row and keeps index order. -/
theorem claim_C6_witness :
    ((⟨[(0, ((4 : ℕ) : ℚ)), (7200, ((7 : ℕ) : ℚ))]⟩ :
        VariableSeries).rows.map Prod.fst).Sublist
      (exProjTable.rows.map Prod.fst) :=
  (claim_C6_holds exProjTable VariableKind.totalPrecipitation
    ⟨[(0, ((4 : ℕ) : ℚ)), (7200, ((7 : ℕ) : ℚ))]⟩ rfl).1

/-! ## Claim C8 -/

/-- Claim C8: projection is pure — the source table comes back unchanged
(the code projects from a copy), so projecting the same kind twice from
the same table yields identical series. -/
theorem claim_C8_holds (t : Table) (k : VariableKind) :
    (project t k).1 = t ∧
    (project (project t k).1 k).2 = (project t k).2 := by
  have h1 : (project t k).1 = t := by
    unfold project
    rcases hfind : t.cols.findIdx? (fun c => containsSeq (marker k) c) with _ | i <;>
      rfl
  exact ⟨h1, by rw [h1]⟩

/-! ## Claim C7 -/

/-- Claim C7: when reading or interpreting the persisted series fails,
the calculator still returns a record, with completeness 0.00 — the
failure is absorbed by the `except` branch and nothing propagates. -/
theorem claim_C7_holds (path : List Char) :
    (calculate_completeness path ReadOutcome.err).completeness = 0 := rfl

/-! ## Claim C9 -/

/-- Claim C9: with the observed span held fixed (the new timestamp lies
between the existing minimum and maximum), appending one more row whose
value coerces to a number never decreases the completeness ratio. -/
theorem claim_C9_holds (rows : List CRow) (r : CRow) (hne : rows ≠ [])
    (hmin : minTs rows ≤ r.datetime) (hmax : r.datetime ≤ maxTs rows)
    (hval : (toNumeric r.value).isSome = true) :
    completenessOfRows rows ≤ completenessOfRows (rows ++ [r]) := by
  have hne2 : rows ++ [r] ≠ [] := by simp
  have hminEq : minTs (rows ++ [r]) = minTs rows := by
    rw [minTs_append_one rows hne r]
    exact min_eq_left hmin
  have hmaxEq : maxTs (rows ++ [r]) = maxTs rows := by
    rw [maxTs_append_one rows hne r]
    exact max_eq_left hmax
  have hEeq : expectedRecords (rows ++ [r]) = expectedRecords rows := by
    unfold expectedRecords
    rw [hminEq, hmaxEq]
  have hvEq : validRecords (rows ++ [r]) = validRecords rows + 1 := by
    unfold validRecords
    rw [List.filter_append, List.length_append, List.filter_cons]
    simp [hval]
  rw [completenessOfRows_nonempty rows hne,
    completenessOfRows_nonempty _ hne2, hEeq, hvEq]
  apply round2_mono
  have hE := expectedRecords_pos rows hne
  have hEpos : (0 : ℚ) < ((expectedRecords rows : ℤ) : ℚ) := by
    exact_mod_cast (by omega : (0 : ℤ) < expectedRecords rows)
  exact (div_le_div_iff_of_pos_right hEpos).mpr
    (by exact_mod_cast Nat.le_succ (validRecords rows))

theorem claim_C9_witness :
    completenessOfRows exSpan ≤ completenessOfRows (exSpan ++ [⟨3600, ['3']⟩]) :=
  claim_C9_holds exSpan ⟨3600, ['3']⟩ (by decide) (by decide) (by decide)
    (by decide)

/-! ## Claim C10 -/

/-- Claim C10 (amended): the calculator totally returns a record whose
station_code is the file's basename with every occurrence of `.csv`
removed (Python's `replace`, which equals suffix removal whenever `.csv`
occurs only as the suffix), and a file that fails to read still
contributes a record with completeness 0.00. -/
theorem claim_C10_amended (path : List Char) (outcome : ReadOutcome) :
    (calculate_completeness path outcome).station_code =
      removeCsvAll (basename path) ∧
    (calculate_completeness path ReadOutcome.err).completeness = 0 := by
  constructor
  · cases outcome <;> rfl
  · rfl

/-- Claim C10 counterexample: on `data/A001.csv.csv` the code's
`replace('.csv', '')` yields `A001`, not the basename with only the
suffix removed (`A001.csv`). -/
theorem claim_C10_counterexample :
    (calculate_completeness ("data/A001.csv.csv".toList)
        (ReadOutcome.ok [])).station_code ≠
      stripCsvSuffixSpec (basename ("data/A001.csv.csv".toList)) := by decide

end Inmet
